import Mathlib

/-!
# Token generation of `scripts/gen_token/main.go`

A shallow embedding of the program `scripts/gen_token/main.go` and of the two
Go standard-library routines it calls (`crypto/sha256`, `encoding/hex`),
followed by theorems about `Query.Token` and `main`.

Conventions.

* A Go `string` / `[]byte` is a `List UInt8` (Go strings are byte sequences).
* `uint32` and `uint64` values are `Nat`s, reduced `% 2 ^ 32` / `% 2 ^ 64`
  wherever the Go operation can overflow.
* A run-time panic is `none`.
-/

/-- Bytes of a Go string literal: the UTF-8 encoding of its source text. -/
def str (s : String) : List UInt8 := s.toUTF8.data.toList

namespace bits

/-- Modelled from the spec: `math/bits.RotateLeft32` of the Go standard library
(not in this repository): `s := uint(k) & 31; return x<<s | x>>(32-s)` on
`uint32`. -/
def RotateLeft32 (x : Nat) (k : Int) : Nat :=
  let s := (k % 32).toNat
  ((x <<< s) % 2 ^ 32) ||| (x >>> (32 - s))

end bits

namespace sha256

/-- The block size of SHA-256 in bytes. -/
def chunk : Nat := 64

/-- The size of a SHA-256 checksum in bytes. -/
def Size : Nat := 32

def init0 : Nat := 0x6A09E667
def init1 : Nat := 0xBB67AE85
def init2 : Nat := 0x3C6EF372
def init3 : Nat := 0xA54FF53A
def init4 : Nat := 0x510E527F
def init5 : Nat := 0x9B05688C
def init6 : Nat := 0x1F83D9AB
def init7 : Nat := 0x5BE0CD19

/-- Round constants of SHA-256 (`_K` in `sha256block.go`). -/
def _K : List Nat :=
  [0x428a2f98, 0x71374491, 0xb5c0fbcf, 0xe9b5dba5, 0x3956c25b, 0x59f111f1, 0x923f82a4, 0xab1c5ed5,
   0xd807aa98, 0x12835b01, 0x243185be, 0x550c7dc3, 0x72be5d74, 0x80deb1fe, 0x9bdc06a7, 0xc19bf174,
   0xe49b69c1, 0xefbe4786, 0x0fc19dc6, 0x240ca1cc, 0x2de92c6f, 0x4a7484aa, 0x5cb0a9dc, 0x76f988da,
   0x983e5152, 0xa831c66d, 0xb00327c8, 0xbf597fc7, 0xc6e00bf3, 0xd5a79147, 0x06ca6351, 0x14292967,
   0x27b70a85, 0x2e1b2138, 0x4d2c6dfc, 0x53380d13, 0x650a7354, 0x766a0abb, 0x81c2c92e, 0x92722c85,
   0xa2bfe8a1, 0xa81a664b, 0xc24b8b70, 0xc76c51a3, 0xd192e819, 0xd6990624, 0xf40e3585, 0x106aa070,
   0x19a4c116, 0x1e376c08, 0x2748774c, 0x34b0bcb5, 0x391c0cb3, 0x4ed8aa4a, 0x5b9cca4f, 0x682e6ff3,
   0x748f82ee, 0x78a5636f, 0x84c87814, 0x8cc70208, 0x90befffa, 0xa4506ceb, 0xbef9a3f7, 0xc67178f2]

/-- Modelled from the spec: the `digest` struct of Go's `crypto/sha256` (standard
library, not in this repository). `h` is the `[8]uint32` chaining value, `x`
holds the buffered bytes `x[:nx]` (so `nx = x.length`), `len` is the `uint64`
count of bytes written. -/
structure digest where
  h : List Nat
  x : List UInt8
  len : Nat
  deriving DecidableEq, Repr

/-- The first loop of `blockGeneric`: `w[i] = p[4i]<<24 | p[4i+1]<<16 | p[4i+2]<<8 | p[4i+3]`
for `i < 16`. -/
def loadWords (p : List UInt8) (w : List Nat) : List Nat :=
  (List.range 16).foldl (fun w i =>
    let j := i * 4
    w.set i (((p.getD j 0).toNat <<< 24) ||| ((p.getD (j + 1) 0).toNat <<< 16)
      ||| ((p.getD (j + 2) 0).toNat <<< 8) ||| (p.getD (j + 3) 0).toNat)) w

/-- The second loop of `blockGeneric`: the message schedule for `16 ≤ i < 64`. -/
def extendWords (w : List Nat) : List Nat :=
  (List.range' 16 48).foldl (fun w i =>
    let v1 := w.getD (i - 2) 0
    let t1 := (bits.RotateLeft32 v1 (-17)) ^^^ (bits.RotateLeft32 v1 (-19)) ^^^ (v1 >>> 10)
    let v2 := w.getD (i - 15) 0
    let t2 := (bits.RotateLeft32 v2 (-7)) ^^^ (bits.RotateLeft32 v2 (-18)) ^^^ (v2 >>> 3)
    w.set i ((t1 + w.getD (i - 7) 0 + t2 + w.getD (i - 16) 0) % 2 ^ 32)) w

/-- One iteration of the round loop of `blockGeneric` on the working variables
`[a, b, c, d, e, f, g, h]`; `^e` on `uint32` is `e ^^^ 0xffffffff`. -/
def round (w : List Nat) (v : List Nat) (i : Nat) : List Nat :=
  let a := v.getD 0 0
  let b := v.getD 1 0
  let c := v.getD 2 0
  let d := v.getD 3 0
  let e := v.getD 4 0
  let f := v.getD 5 0
  let g := v.getD 6 0
  let h := v.getD 7 0
  let t1 := (h + ((bits.RotateLeft32 e (-6)) ^^^ (bits.RotateLeft32 e (-11)) ^^^ (bits.RotateLeft32 e (-25)))
    + ((e &&& f) ^^^ ((e ^^^ 0xffffffff) &&& g)) + _K.getD i 0 + w.getD i 0) % 2 ^ 32
  let t2 := (((bits.RotateLeft32 a (-2)) ^^^ (bits.RotateLeft32 a (-13)) ^^^ (bits.RotateLeft32 a (-22)))
    + ((a &&& b) ^^^ (a &&& c) ^^^ (b &&& c))) % 2 ^ 32
  [(t1 + t2) % 2 ^ 32, a, b, c, (d + t1) % 2 ^ 32, e, f, g]

/-- The body of the outer loop of `blockGeneric` for one 64-byte chunk at the
front of `p`: schedule, 64 rounds, and `h0 += a; …; h7 += h`. -/
def blockStep (hs : List Nat) (p : List UInt8) : List Nat :=
  let w := extendWords (loadWords p (List.replicate 64 0))
  let v := (List.range 64).foldl (round w) ((List.range 8).map (fun i => hs.getD i 0))
  (List.range 8).map (fun i => (hs.getD i 0 + v.getD i 0) % 2 ^ 32)

/-- The outer loop `for len(p) >= chunk { …; p = p[chunk:] }` of `blockGeneric`,
run for at most `n` iterations. -/
def blockLoop : Nat → List Nat → List UInt8 → List Nat
  | 0, hs, _ => hs
  | n + 1, hs, p =>
    if p.length ≥ chunk then blockLoop n (blockStep hs p) (p.drop chunk) else hs

/-- Modelled from the spec: `blockGeneric` of Go's `crypto/sha256` (standard
library, not in this repository); the loop runs `len(p) / chunk` times. -/
def block (dig : digest) (p : List UInt8) : digest :=
  { dig with h := blockLoop (p.length / chunk) dig.h p }

/-- Modelled from the spec: `(*digest).Reset` of Go's `crypto/sha256`. -/
def digest.Reset (d : digest) : digest :=
  { d with h := [init0, init1, init2, init3, init4, init5, init6, init7], x := [], len := 0 }

/-- Modelled from the spec: `sha256.New` of Go's `crypto/sha256`: a zero `digest`, reset. -/
def New : digest := digest.Reset { h := List.replicate 8 0, x := [], len := 0 }

/-- Modelled from the spec: `(*digest).Write` of Go's `crypto/sha256`.
`copy(dst, src)` copies `min(len(dst), len(src))` bytes; `len(p) &^ (chunk-1)`
is `len(p) - len(p) % chunk`. -/
def digest.Write (d : digest) (p : List UInt8) : digest :=
  let d := { d with len := (d.len + p.length) % 2 ^ 64 }
  let dp : digest × List UInt8 :=
    if d.x.length > 0 then
      let n := min (chunk - d.x.length) p.length
      let d := { d with x := d.x ++ p.take n }
      let d := if d.x.length = chunk then { block d d.x with x := [] } else d
      (d, p.drop n)
    else (d, p)
  let dp : digest × List UInt8 :=
    if dp.2.length ≥ chunk then
      let n := dp.2.length - dp.2.length % chunk
      (block dp.1 (dp.2.take n), dp.2.drop n)
    else dp
  if dp.2.length > 0 then { dp.1 with x := dp.2.take chunk } else dp.1

/-- Big-endian bytes of the low `8 * k` bits of `v` (`binary.BigEndian.PutUint32`
for `k = 4`, `PutUint64` for `k = 8`). -/
def putBE : Nat → Nat → List UInt8
  | 0, _ => []
  | k + 1, v => UInt8.ofNat ((v >>> (8 * k)) % 256) :: putBE k v

/-- Modelled from the spec: `(*digest).checkSum` of Go's `crypto/sha256`:
padding `0x80 0…0` up to 56 mod 64, the bit length as a big-endian `uint64`,
a panic when the buffer is not empty afterwards, and the eight words of `h`
big-endian. -/
def digest.checkSum (d : digest) : Option (List UInt8) :=
  let len := d.len
  let tmp : List UInt8 := 0x80 :: List.replicate (64 + 8 - 1) 0
  let t := if len % 64 < 56 then 56 - len % 64 else 64 + 56 - len % 64
  let len := (len <<< 3) % 2 ^ 64
  let padlen := tmp.take t ++ putBE 8 len
  let d := d.Write padlen
  if d.x.length ≠ 0 then none
  else some ((List.range 8).flatMap (fun i => putBE 4 (d.h.getD i 0)))

/-- Modelled from the spec: `(*digest).Sum` of Go's `crypto/sha256`: works on a
copy of `d` and appends the checksum to `b`. -/
def digest.Sum (d : digest) (b : List UInt8) : Option (List UInt8) :=
  let d0 := d
  (d0.checkSum).map (fun hash => b ++ hash)

/-- Modelled from the spec: `sha256.Sum256` of Go's `crypto/sha256`: the
checksum of `data` computed in one shot. -/
def Sum256 (data : List UInt8) : Option (List UInt8) :=
  let d : digest := digest.Reset { h := List.replicate 8 0, x := [], len := 0 }
  let d := d.Write data
  d.checkSum

end sha256

namespace hex

/-- The digit table of Go's `encoding/hex`. -/
def hextable : List UInt8 := str "0123456789abcdef"

/-- Modelled from the spec: `hex.Encode` / `hex.EncodeToString` of Go's
`encoding/hex` (standard library, not in this repository): for each byte `v`,
`hextable[v>>4]` then `hextable[v&0x0f]`. -/
def EncodeToString : List UInt8 → List UInt8
  | [] => []
  | v :: src => hextable.getD (v >>> 4).toNat 0 :: hextable.getD (v &&& 0x0f).toNat 0
      :: EncodeToString src

end hex

namespace os

/-- The process environment: the value of each variable that is set. -/
abbrev Environ := List UInt8 → Option (List UInt8)

/-- Modelled from the spec: `os.Getenv` of the Go standard library: the value of
the variable named `key`, which is empty when the variable is not present. -/
def Getenv (env : Environ) (key : List UInt8) : List UInt8 :=
  match env key with
  | some v => v
  | none => []

end os

/-- What `main` can observe and change: the environment and the bytes written
to standard output so far. -/
structure World where
  env : os.Environ
  stdout : List UInt8

namespace fmt

/-- Modelled from the spec: `fmt.Println` of the Go standard library applied to one
string: the string and a newline are written to standard output. -/
def Println (w : World) (a : List UInt8) : World :=
  { w with stdout := w.stdout ++ a ++ str "\n" }

end fmt

namespace gen_token

/-- The struct `Query` of `main.go`. -/
structure Query where
  FullPath : List UInt8
  deriving DecidableEq, Repr

/-- The method `func (q *Query) Token(secret string) string` of `main.go`. The
result pairs the returned string with the receiver as the call leaves it;
`none` is a panic raised inside `hasher.Sum`. -/
def Query.Token (q : Query) (secret : List UInt8) : Option (List UInt8 × Query) :=
  let hasher := sha256.New
  let hasher := hasher.Write q.FullPath
  let hasher := hasher.Write (str "$")
  let hasher := hasher.Write secret
  match hasher.Sum [] with
  | none => none
  | some hash =>
    let encodedHash := hex.EncodeToString hash
    some (encodedHash, q)

/-- The function `main` of `main.go`, as a step on the world. -/
def main (w : World) : Option World :=
  let ys : Query := { FullPath := str "/?width=100&height=200&blur=3" }
  match ys.Token (os.Getenv w.env (str "TOKEN_SECRET")) with
  | none => none
  | some (token, _) => some (fmt.Println w token)

/-- The byte buffer the specification hashes: `bytes(path) || bytes("$") || bytes(secret)`. -/
def tokenInput (path secret : List UInt8) : List UInt8 :=
  path ++ str "$" ++ secret

end gen_token

/-! ## Definitions used in the statements and proofs -/

/-- The state that buffering and compressing the byte stream `s` from the chaining value `hs` leaves. -/
def sha256.absorb (hs : List Nat) (s : List UInt8) (len : Nat) : digest :=
  { h := blockLoop (s.length / 64) hs s, x := s.drop (s.length / 64 * 64), len := len }

/-- The bytes buffered in a state are those its byte count says: `nx = len % 64`. -/
def sha256.digest.inv (d : digest) : Prop := d.x.length = d.len % 64

/-- The padding `checkSum` writes for a byte count `len`. -/
def sha256.padding (len : Nat) : List UInt8 :=
  ((0x80 : UInt8) :: List.replicate (64 + 8 - 1) 0).take
      (if len % 64 < 56 then 56 - len % 64 else 64 + 56 - len % 64)
    ++ putBE 8 ((len <<< 3) % 2 ^ 64)

/-- The checksum bytes of a chaining value. -/
def sha256.digestBytes (hs : List Nat) : List UInt8 :=
  (List.range 8).flatMap (fun i => putBE 4 (hs.getD i 0))

/-- Whether the byte `c` is one of the ASCII characters `0-9` or `a-f`. -/
def hex.isLowerHex (c : UInt8) : Bool :=
  ('0'.toNat ≤ c.toNat && c.toNat ≤ '9'.toNat) || ('a'.toNat ≤ c.toNat && c.toNat ≤ 'f'.toNat)

/-- The value of a lowercase hex digit. -/
def hex.digitValue (c : UInt8) : Nat :=
  if c.toNat ≤ '9'.toNat then c.toNat - '0'.toNat else c.toNat - 'a'.toNat + 10

/-- Modelled from the spec: `fromHexChar` of Go's `encoding/hex` (standard library, not
in this repository): the value of a hex character, `none` for any other byte. -/
def hex.fromHexChar (c : UInt8) : Option UInt8 :=
  if '0'.toUInt8 ≤ c ∧ c ≤ '9'.toUInt8 then some (c - '0'.toUInt8)
  else if 'a'.toUInt8 ≤ c ∧ c ≤ 'f'.toUInt8 then some (c - 'a'.toUInt8 + 10)
  else if 'A'.toUInt8 ≤ c ∧ c ≤ 'F'.toUInt8 then some (c - 'A'.toUInt8 + 10)
  else none

/-- Modelled from the spec: `hex.DecodeString` of Go's `encoding/hex` (standard library,
not in this repository; the program does not call it): each pair of hex characters `p q`
gives the byte `(a << 4) | b`; an invalid character or an odd length is an error, `none`. -/
def hex.DecodeString : List UInt8 → Option (List UInt8)
  | [] => some []
  | [_] => none
  | p :: q :: src =>
    match hex.fromHexChar p, hex.fromHexChar q with
    | some a, some b =>
      match hex.DecodeString src with
      | some dst => some (((a <<< 4) ||| b) :: dst)
      | none => none
    | _, _ => none

set_option maxRecDepth 1000000

/-! ## The streaming hasher -/

namespace sha256

/-- The first sixteen words depend on the first 64 bytes of `p` only. -/
theorem loadWords_congr (p q : List UInt8) (w : List Nat)
    (hpq : ∀ j, j < 64 → p.getD j 0 = q.getD j 0) : loadWords p w = loadWords q w := by
  unfold loadWords
  apply List.foldl_ext
  intro a i hi
  have hi16 : i < 16 := List.mem_range.mp hi
  simp only []
  rw [hpq (i * 4) (by omega), hpq (i * 4 + 1) (by omega), hpq (i * 4 + 2) (by omega),
    hpq (i * 4 + 3) (by omega)]

/-- One compression step reads the first 64 bytes of its input only. -/
theorem blockStep_append (hs : List Nat) (p q : List UInt8) (hp : 64 ≤ p.length) :
    blockStep hs (p ++ q) = blockStep hs p := by
  unfold blockStep
  rw [loadWords_congr (p ++ q) p _ (fun j hj => List.getD_append p q 0 j (by omega))]

/-- Running `n` iterations reads the first `n * 64` bytes only. -/
theorem blockLoop_append (n : Nat) : ∀ (hs : List Nat) (p q : List UInt8),
    n * 64 ≤ p.length → blockLoop n hs (p ++ q) = blockLoop n hs p := by
  induction n with
  | zero => intro hs p q _; rfl
  | succ n ih =>
    intro hs p q hp
    have h64 : 64 ≤ p.length := by omega
    have h1 : (p ++ q).length ≥ chunk := by simp [chunk]; omega
    have h2 : p.length ≥ chunk := by simp [chunk]; omega
    simp only [blockLoop, h1, h2, if_true]
    rw [blockStep_append hs p q h64, show chunk = 64 from rfl,
      List.drop_append_of_le_length h64]
    exact ih _ _ _ (by simp; omega)

/-- The loop over `a ++ b`, with `a` a whole number of chunks, is the loop over `a` followed by the loop over `b`. -/
theorem blockLoop_split (k : Nat) : ∀ (m : Nat) (hs : List Nat) (a b : List UInt8),
    a.length = k * 64 → blockLoop (k + m) hs (a ++ b) = blockLoop m (blockLoop k hs a) b := by
  induction k with
  | zero =>
    intro m hs a b ha
    have : a = [] := List.length_eq_zero.mp (by omega)
    subst this
    simp [blockLoop]
  | succ k ih =>
    intro m hs a b ha
    have h64 : 64 ≤ a.length := by omega
    have h1 : (a ++ b).length ≥ chunk := by simp [chunk]; omega
    have h2 : a.length ≥ chunk := by simp [chunk]; omega
    rw [show k + 1 + m = (k + m) + 1 by omega]
    simp only [blockLoop, h1, h2, if_true]
    rw [blockStep_append hs a b h64, show chunk = 64 from rfl,
      List.drop_append_of_le_length h64]
    exact ih m _ _ b (by simp; omega)

/-- Truncating the input to `n` chunks does not change `n` iterations. -/
theorem blockLoop_take (n : Nat) (hs : List Nat) (p : List UInt8) (hn : n * 64 ≤ p.length) :
    blockLoop n hs (p.take (n * 64)) = blockLoop n hs p := by
  have h := blockLoop_append n hs (p.take (n * 64)) (p.drop (n * 64))
    (by rw [List.length_take]; omega)
  rw [List.take_append_drop] at h
  exact h.symm

/-- The whole chunks of `p` number `p.length / 64`. -/
theorem length_take_div (p : List UInt8) :
    (List.take (p.length / 64 * 64) p).length / 64 = p.length / 64 := by
  rw [List.length_take]; omega

/-- What is left of `p` after its whole chunks has `p.length % 64` bytes. -/
theorem length_drop_div (p : List UInt8) :
    (List.drop (p.length / 64 * 64) p).length = p.length % 64 := by
  rw [List.length_drop]; omega

/-- Writing into an empty buffer. -/
theorem Write_nil (hs : List Nat) (l : Nat) (p : List UInt8) :
    digest.Write { h := hs, x := [], len := l } p = absorb hs p ((l + p.length) % 2 ^ 64) := by
  unfold digest.Write absorb
  simp only [List.length_nil, gt_iff_lt, lt_irrefl, if_false, chunk]
  by_cases hp : p.length ≥ 64
  · simp only [hp, if_true]
    have hn : p.length - p.length % 64 = p.length / 64 * 64 := by omega
    rw [hn]
    have hlen := length_drop_div p
    have hb : blockLoop ((List.take (p.length / 64 * 64) p).length / 64) hs
        (List.take (p.length / 64 * 64) p) = blockLoop (p.length / 64) hs p := by
      rw [length_take_div, blockLoop_take _ _ _ (by omega)]
    have ht : List.take 64 (List.drop (p.length / 64 * 64) p) = List.drop (p.length / 64 * 64) p :=
      List.take_of_length_le (by omega)
    by_cases hr : 0 < (p.drop (p.length / 64 * 64)).length
    · simp only [hr, if_true, block, chunk, ht, hb]
    · simp only [hr, if_false, block, chunk, hb]
      have : p.drop (p.length / 64 * 64) = [] := List.length_eq_zero.mp (by omega)
      rw [this]
  · simp only [hp, if_false]
    have h0 : p.length / 64 = 0 := by omega
    rw [h0]
    simp only [blockLoop, Nat.zero_mul, List.drop_zero]
    by_cases hr : 0 < p.length
    · simp only [hr, if_true]
      rw [List.take_of_length_le (by omega)]
    · simp only [hr, if_false]
      have : p = [] := List.length_eq_zero.mp (by omega)
      rw [this]

/-- `Write` on a state whose buffer is not full. -/
theorem Write_spec (d : digest) (p : List UInt8) (hx : d.x.length < 64) :
    d.Write p = absorb d.h (d.x ++ p) ((d.len + p.length) % 2 ^ 64) := by
  obtain ⟨hs, x, l⟩ := d
  simp only at hx ⊢
  by_cases hx0 : x = []
  · subst hx0
    rw [Write_nil]; rfl
  have hxpos : 0 < x.length := List.length_pos.mpr hx0
  by_cases hfill : x.length + p.length < 64
  · -- the buffer does not fill up
    unfold digest.Write absorb
    simp only [chunk, gt_iff_lt, ge_iff_le]
    have hmin : min (64 - x.length) p.length = p.length := by omega
    have hne : ¬ (x ++ p).length = 64 := by rw [List.length_append]; omega
    have h0 : (x ++ p).length / 64 = 0 := by rw [List.length_append]; omega
    simp only [hxpos, if_true, hmin, List.take_length, List.drop_length, hne, if_false,
      List.length_nil, h0, blockLoop, Nat.zero_mul, List.drop_zero]
    simp
  · -- the buffer fills up and is compressed
    have hmin : min (64 - x.length) p.length = 64 - x.length := by omega
    have hlen : (x ++ List.take (64 - x.length) p).length = 64 := by
      rw [List.length_append, List.length_take]; omega
    have h1 : blockLoop 1 hs (x ++ List.take (64 - x.length) p)
        = blockStep hs (x ++ List.take (64 - x.length) p) := by
      simp only [blockLoop, chunk, hlen, ge_iff_le, le_refl, if_true]
    have key : digest.Write { h := hs, x := x, len := l } p
        = { digest.Write { h := blockStep hs (x ++ List.take (64 - x.length) p), x := [], len := l }
              (List.drop (64 - x.length) p) with len := (l + p.length) % 2 ^ 64 } := by
      unfold digest.Write
      simp only [chunk, gt_iff_lt, ge_iff_le]
      simp only [hxpos, if_true, hmin, hlen, List.length_nil, lt_irrefl, if_false, block, chunk,
        Nat.div_self (show 0 < 64 by decide), h1]
      split_ifs <;> rfl
    rw [key, Write_nil]
    unfold absorb
    have hsplit : x ++ p = (x ++ List.take (64 - x.length) p) ++ List.drop (64 - x.length) p := by
      rw [List.append_assoc, List.take_append_drop]
    have hdl : (List.drop (64 - x.length) p).length = x.length + p.length - 64 := by
      rw [List.length_drop]; omega
    have hdiv : (x ++ p).length / 64 = 1 + (List.drop (64 - x.length) p).length / 64 := by
      rw [List.length_append, hdl]; omega
    rw [hdiv]
    simp only [digest.mk.injEq, and_true]
    constructor
    · rw [hsplit, blockLoop_split 1 _ hs _ _ (by rw [hlen]), h1]
    · have hnil : List.drop ((1 + (List.drop (64 - x.length) p).length / 64) * 64)
          (x ++ List.take (64 - x.length) p) = [] :=
        List.drop_eq_nil_of_le (by rw [hlen]; omega)
      rw [hsplit, List.drop_append_eq_append_drop, hlen, hnil, List.nil_append]
      congr 1
      omega

/-- Under the invariant the buffer is never full. -/
theorem digest_inv_lt (d : digest) (hd : d.inv) : d.x.length < 64 := by
  unfold digest.inv at hd; omega

/-- The state `sha256.New` returns. -/
theorem New_eq : sha256.New =
    { h := [init0, init1, init2, init3, init4, init5, init6, init7], x := [], len := 0 } := rfl

/-- A new hasher satisfies the invariant. -/
theorem New_inv : sha256.New.inv := by
  rw [New_eq]; rfl

/-- `Write` preserves the invariant. -/
theorem Write_inv (d : digest) (p : List UInt8) (hd : d.inv) : (d.Write p).inv := by
  have hx := digest_inv_lt d hd
  rw [Write_spec d p hx]
  unfold digest.inv at hd ⊢
  unfold absorb
  simp only [List.length_drop, List.length_append]
  omega

/-- Two successive writes are one write of the concatenation. -/
theorem Write_Write (d : digest) (a b : List UInt8) (hd : d.inv) :
    (d.Write a).Write b = d.Write (a ++ b) := by
  have hx := digest_inv_lt d hd
  have hx2 := digest_inv_lt _ (Write_inv d a hd)
  rw [Write_spec _ b hx2, Write_spec d a hx, Write_spec d (a ++ b) hx]
  unfold absorb
  simp only [digest.mk.injEq]
  have hs : d.x ++ (a ++ b) = List.take ((d.x ++ a).length / 64 * 64) (d.x ++ a)
      ++ (List.drop ((d.x ++ a).length / 64 * 64) (d.x ++ a) ++ b) := by
    rw [← List.append_assoc (List.take _ _) _ b, List.take_append_drop, List.append_assoc]
  have htl : (List.take ((d.x ++ a).length / 64 * 64) (d.x ++ a)).length
      = (d.x ++ a).length / 64 * 64 := by
    rw [List.length_take]; omega
  have hdl : (List.drop ((d.x ++ a).length / 64 * 64) (d.x ++ a) ++ b).length
      = (d.x ++ a).length % 64 + b.length := by
    rw [List.length_append, List.length_drop]; omega
  have hdiv : (d.x ++ (a ++ b)).length / 64
      = (d.x ++ a).length / 64 + ((d.x ++ a).length % 64 + b.length) / 64 := by
    simp only [List.length_append]; omega
  refine ⟨?_, ?_, ?_⟩
  · rw [hdiv, hdl]
    conv_rhs => rw [hs]
    rw [blockLoop_split _ _ _ _ _ htl, blockLoop_take _ _ _ (by omega)]
  · have hda : List.drop ((d.x ++ a).length / 64 * 64) (d.x ++ a ++ b)
        = List.drop ((d.x ++ a).length / 64 * 64) (d.x ++ a) ++ b :=
      List.drop_append_of_le_length (by omega)
    rw [hdiv, hdl, Nat.add_mul, ← List.drop_drop, ← List.append_assoc, hda]
  · simp only [List.length_append]
    omega

/-- `putBE k` produces `k` bytes. -/
theorem putBE_length (k v : Nat) : (putBE k v).length = k := by
  induction k with
  | zero => rfl
  | succ k ih => simp [putBE, ih]

/-- The padding completes the last chunk. -/
theorem padding_length (len : Nat) : (len + (padding len).length) % 64 = 0 := by
  unfold padding
  rw [List.length_append, putBE_length, List.length_take]
  simp only [List.length_cons, List.length_replicate]
  split_ifs <;> omega

/-- A checksum has 32 bytes. -/
theorem digestBytes_length (hs : List Nat) : (digestBytes hs).length = 32 := by
  unfold digestBytes
  simp [List.range, List.range.loop, List.flatMap, putBE_length]

/-- Under the invariant `checkSum` does not panic: it returns the bytes of the chaining value reached after the padding. -/
theorem checkSum_eq (d : digest) (hd : d.inv) :
    d.checkSum = some (digestBytes (d.Write (padding d.len)).h) := by
  have hx := digest_inv_lt d hd
  have hlen : (d.Write (padding d.len)).x.length = 0 := by
    have hi := Write_inv d (padding d.len) hd
    unfold digest.inv at hi hd
    rw [hi, Write_spec d _ hx]
    unfold absorb
    simp only
    have := padding_length d.len
    omega
  unfold digest.checkSum
  simp only []
  change (if (d.Write (padding d.len)).x.length ≠ 0 then none
    else some (digestBytes (d.Write (padding d.len)).h)) = _
  simp [hlen]

/-- `Sum256` always returns a checksum. -/
theorem Sum256_eq (data : List UInt8) :
    Sum256 data = some (digestBytes ((sha256.New.Write data).Write (padding (data.length % 2 ^ 64))).h) := by
  have h : Sum256 data = (sha256.New.Write data).checkSum := rfl
  rw [h, checkSum_eq _ (Write_inv _ _ New_inv), Write_spec _ _ (digest_inv_lt _ New_inv)]
  simp [absorb, New_eq]

/-- The checksum `Sum256` returns has 32 bytes. -/
theorem Sum256_length (data hash : List UInt8) (h : Sum256 data = some hash) :
    hash.length = 32 := by
  rw [Sum256_eq] at h
  injection h with h
  rw [← h, digestBytes_length]

/-- `Sum(nil)` is the checksum. -/
theorem Sum_nil (d : digest) : d.Sum [] = d.checkSum := by
  show (d.checkSum).map (fun hash => [] ++ hash) = d.checkSum
  cases d.checkSum <;> rfl

end sha256

/-! ## Hex encoding -/

namespace hex

open hex

/-- The encoding has two characters per byte. -/
theorem EncodeToString_length (src : List UInt8) :
    (hex.EncodeToString src).length = 2 * src.length := by
  induction src with
  | nil => rfl
  | cons v src ih => simp only [hex.EncodeToString, List.length_cons, ih]; omega

/-- Both digits of every byte are lowercase hex characters. -/
theorem hexdigit_lower : ∀ n : Fin 256,
    hex.isLowerHex (hex.hextable.getD ((UInt8.mk (BitVec.ofFin n)) >>> 4).toNat 0) = true
    ∧ hex.isLowerHex (hex.hextable.getD ((UInt8.mk (BitVec.ofFin n)) &&& 0x0f).toNat 0) = true := by
  decide

/-- Every character of an encoding is a lowercase hex character. -/
theorem EncodeToString_lower (src : List UInt8) :
    ∀ c ∈ hex.EncodeToString src, hex.isLowerHex c = true := by
  induction src with
  | nil => intro c hc; simp [hex.EncodeToString] at hc
  | cons v src ih =>
    intro c hc
    simp only [hex.EncodeToString, List.mem_cons] at hc
    obtain ⟨⟨n⟩⟩ := v
    rcases hc with h | h | h
    · rw [h]; exact (hexdigit_lower n).1
    · rw [h]; exact (hexdigit_lower n).2
    · exact ih c h

/-- The two digits of a byte give back its value. -/
theorem hexpair_value : ∀ n : Fin 256,
    16 * digitValue (hextable.getD ((UInt8.mk (BitVec.ofFin n)) >>> 4).toNat 0)
      + digitValue (hextable.getD ((UInt8.mk (BitVec.ofFin n)) &&& 0x0f).toNat 0) = n.val := by
  decide

/-- Bytes with the same two digits are equal. -/
theorem hexpair_inj (v w : UInt8)
    (h1 : hextable.getD (v >>> 4).toNat 0 = hextable.getD (w >>> 4).toNat 0)
    (h2 : hextable.getD (v &&& 0x0f).toNat 0 = hextable.getD (w &&& 0x0f).toNat 0) : v = w := by
  obtain ⟨⟨n⟩⟩ := v
  obtain ⟨⟨m⟩⟩ := w
  have hn := hexpair_value n
  have hm := hexpair_value m
  rw [h1, h2, hm] at hn
  have : m = n := Fin.ext hn
  rw [this]

/-- Distinct byte strings have distinct encodings. -/
theorem EncodeToString_injective : ∀ a b : List UInt8,
    EncodeToString a = EncodeToString b → a = b := by
  intro a
  induction a with
  | nil =>
    intro b h
    cases b with
    | nil => rfl
    | cons w b => simp [EncodeToString] at h
  | cons v a ih =>
    intro b h
    cases b with
    | nil => simp [EncodeToString] at h
    | cons w b =>
      simp only [EncodeToString, List.cons.injEq] at h
      rw [hexpair_inj v w h.1 h.2.1, ih b h.2.2]

/-- The decoder on a mixed-case string, on an odd length and on a character that is no hex
digit. -/
theorem DecodeString_examples :
    DecodeString (str "0aFf10") = some [0x0a, 0xff, 0x10]
      ∧ DecodeString (str "abc") = none
      ∧ DecodeString (str "0g") = none := by
  decide

/-- Decoding the two digits of a byte gives the byte back. -/
theorem decode_hexpair : ∀ n : Fin 256,
    DecodeString [hextable.getD ((UInt8.mk (BitVec.ofFin n)) >>> 4).toNat 0,
        hextable.getD ((UInt8.mk (BitVec.ofFin n)) &&& 0x0f).toNat 0]
      = some [UInt8.mk (BitVec.ofFin n)] := by
  decide

/-- Decoding an encoding gives the bytes back. -/
theorem DecodeString_EncodeToString (src : List UInt8) :
    DecodeString (EncodeToString src) = some src := by
  induction src with
  | nil => rfl
  | cons v src ih =>
    obtain ⟨⟨n⟩⟩ := v
    have h := decode_hexpair n
    simp only [EncodeToString, DecodeString] at h ⊢
    rw [ih]
    revert h
    cases fromHexChar (hextable.getD ((UInt8.mk (BitVec.ofFin n)) >>> 4).toNat 0) <;>
      cases fromHexChar (hextable.getD ((UInt8.mk (BitVec.ofFin n)) &&& 0x0f).toNat 0) <;>
      simp

end hex

/-! ## `Query.Token` and `main` -/

namespace gen_token

open sha256 hex

/-- The model of `sha256.Sum256` and `hex.EncodeToString` on the standard test vectors `""` and
`"abc"`. -/
theorem Sum256_test_vectors :
    (Sum256 (str "")).map hex.EncodeToString
        = some (str "e3b0c44298fc1c149afbf4c8996fb92427ae41e4649b934ca495991b7852b855")
      ∧ (Sum256 (str "abc")).map hex.EncodeToString
        = some (str "ba7816bf8f01cfea414140de5dae2223b00361a396177a9cb410ff61f20015ad") := by
  decide

/-- `Token` is the hex encoding of the one-shot checksum of `tokenInput`, paired with the unchanged receiver. -/
theorem Token_eq (q : Query) (secret : List UInt8) :
    q.Token secret = (Sum256 (tokenInput q.FullPath secret)).map
      (fun hash => (hex.EncodeToString hash, q)) := by
  have hW : ((sha256.New.Write q.FullPath).Write (str "$")).Write secret
      = sha256.New.Write (tokenInput q.FullPath secret) := by
    rw [Write_Write _ _ _ New_inv, Write_Write _ _ _ New_inv]
    rfl
  have hS : Sum256 (tokenInput q.FullPath secret)
      = (sha256.New.Write (tokenInput q.FullPath secret)).checkSum := rfl
  unfold Query.Token
  simp only []
  rw [hW, Sum_nil, ← hS]
  cases Sum256 (tokenInput q.FullPath secret) <;> rfl

/-- A separator that occurs in neither prefix splits a list in one way only. -/
theorem append_sep_inj (c : UInt8) : ∀ (p p' s s' : List UInt8), c ∉ p → c ∉ p' →
    p ++ [c] ++ s = p' ++ [c] ++ s' → p = p' ∧ s = s' := by
  intro p
  induction p with
  | nil =>
    intro p' s s' _ hp' h
    cases p' with
    | nil => simpa using h
    | cons a t =>
      simp only [List.nil_append, List.cons_append, List.singleton_append, List.cons.injEq] at h
      exact absurd (List.mem_cons.mpr (Or.inl h.1)) hp'
  | cons a t ih =>
    intro p' s s' hp hp' h
    cases p' with
    | nil =>
      simp only [List.nil_append, List.cons_append, List.singleton_append, List.cons.injEq] at h
      exact absurd (List.mem_cons.mpr (Or.inl h.1.symm)) hp
    | cons a' t' =>
      simp only [List.cons_append, List.cons.injEq] at h
      have hr := ih t' s s' (fun hm => hp (List.mem_cons_of_mem _ hm))
        (fun hm => hp' (List.mem_cons_of_mem _ hm)) h.2
      exact ⟨by rw [h.1, hr.1], hr.2⟩

/-- C1: `Token` returns the lowercase hex encoding of the SHA-256 digest of
`bytes(p) ++ bytes("$") ++ bytes(s)`: the three `Write` calls followed by `Sum(nil)` give the
digest that `sha256.Sum256` computes over the concatenated buffer in one shot. -/
theorem Token_eq_hex_Sum256 (p s : List UInt8) :
    ∃ hash, Sum256 (p ++ str "$" ++ s) = some hash
      ∧ (((sha256.New.Write p).Write (str "$")).Write s).Sum [] = some hash
      ∧ Query.Token { FullPath := p } s = some (hex.EncodeToString hash, { FullPath := p }) := by
  have hT := Token_eq { FullPath := p } s
  have hS := Sum256_eq (p ++ str "$" ++ s)
  refine ⟨_, hS, ?_, ?_⟩
  · rw [Sum_nil, Write_Write _ _ _ New_inv, Write_Write _ _ _ New_inv, ← hS]
    rfl
  · rw [hT]
    unfold tokenInput
    rw [hS]
    rfl

/-- C2: the string `Token` returns has exactly 64 characters, two per digest byte, each one
of `0-9` or `a-f` and none of `A-F`. -/
theorem Token_format (p s : List UInt8) :
    ∃ hash t, Sum256 (tokenInput p s) = some hash ∧ hash.length = sha256.Size
      ∧ Query.Token { FullPath := p } s = some (t, { FullPath := p })
      ∧ t.length = 2 * hash.length ∧ t.length = 64
      ∧ (∀ c ∈ t, hex.isLowerHex c = true)
      ∧ (∀ c ∈ t, ¬ ('A'.toNat ≤ c.toNat ∧ c.toNat ≤ 'F'.toNat)) := by
  have hT := Token_eq { FullPath := p } s
  obtain ⟨hash, hS⟩ : ∃ hash, Sum256 (tokenInput p s) = some hash := ⟨_, Sum256_eq _⟩
  have hl := Sum256_length _ _ hS
  refine ⟨hash, hex.EncodeToString hash, hS, hl, ?_, ?_, ?_, ?_, ?_⟩
  · rw [hT, hS]; rfl
  · exact EncodeToString_length _
  · rw [EncodeToString_length, hl]
  · exact EncodeToString_lower _
  · intro c hc
    have h := EncodeToString_lower _ c hc
    simp only [hex.isLowerHex, Bool.or_eq_true, Bool.and_eq_true, decide_eq_true_eq] at h
    have h0 : '0'.toNat = 48 := rfl
    have h9 : '9'.toNat = 57 := rfl
    have ha : 'a'.toNat = 97 := rfl
    have hf : 'f'.toNat = 102 := rfl
    have hA : 'A'.toNat = 65 := rfl
    have hF : 'F'.toNat = 70 := rfl
    omega

/-- C3: `Token` of path `"ab"` and secret `"c"` differs from `Token` of path `"a"` and secret
`"bc"`; the hashed inputs are `"ab$c"` and `"a$bc"`. -/
theorem Token_ab_c_ne_a_bc :
    tokenInput (str "ab") (str "c") = str "ab$c" ∧ tokenInput (str "a") (str "bc") = str "a$bc"
      ∧ Query.Token { FullPath := str "ab" } (str "c")
          = some (str "a061156eb44a59f18ff6ead7a2afae6f64a65f8a18531edb5b5bfd0021cfccc6",
              { FullPath := str "ab" })
      ∧ Query.Token { FullPath := str "a" } (str "bc")
          = some (str "207608c8e3282db0d7285b4d68098641c3ed4da51eaec01d0b31993f2346b39e",
              { FullPath := str "a" })
      ∧ (Query.Token { FullPath := str "ab" } (str "c")).map Prod.fst
          ≠ (Query.Token { FullPath := str "a" } (str "bc")).map Prod.fst := by
  decide

/-- C4: for path `/?width=100&height=200&blur=3` and secret `test`, `Token` returns the
lowercase hex SHA-256 digest of the 34-byte literal `/?width=100&height=200&blur=3$test`. -/
theorem Token_known_vector :
    (str "/?width=100&height=200&blur=3$test").length = 34
      ∧ Query.Token { FullPath := str "/?width=100&height=200&blur=3" } (str "test")
          = (Sum256 (str "/?width=100&height=200&blur=3$test")).map
              (fun hash => (hex.EncodeToString hash, { FullPath := str "/?width=100&height=200&blur=3" }))
      ∧ Query.Token { FullPath := str "/?width=100&height=200&blur=3" } (str "test")
          = some (str "d8da31cf6d779a7564d7b602223fa6e683dd5cb5af03e31330c493c680dd396a",
              { FullPath := str "/?width=100&height=200&blur=3" }) := by
  decide

/-- C5: `Token` does not fail on an empty secret: for every path `p` it returns the hex
SHA-256 digest of `bytes(p) ++ "$"`, a string of 64 lowercase hex characters. -/
theorem Token_empty_secret (p : List UInt8) :
    ∃ hash, Sum256 (p ++ str "$") = some hash
      ∧ Query.Token { FullPath := p } (str "") = some (hex.EncodeToString hash, { FullPath := p })
      ∧ (hex.EncodeToString hash).length = 64
      ∧ ∀ c ∈ hex.EncodeToString hash, hex.isLowerHex c = true := by
  obtain ⟨hash, hS⟩ : ∃ hash, Sum256 (p ++ str "$") = some hash := ⟨_, Sum256_eq _⟩
  have hi : tokenInput p (str "") = p ++ str "$" := List.append_nil _
  refine ⟨hash, hS, ?_, ?_, EncodeToString_lower _⟩
  · rw [Token_eq, hi, hS]; rfl
  · rw [EncodeToString_length, Sum256_length _ _ hS]

/-- C6: `Token` is deterministic: calls with the same `FullPath` and the same secret
return the same token, which is a function of the pair alone. -/
theorem Token_deterministic (q q' : Query) (s s' : List UInt8)
    (hp : q.FullPath = q'.FullPath) (hs : s = s') :
    ∃ t, q.Token s = some (t, q) ∧ q'.Token s' = some (t, q') := by
  obtain ⟨hash, hS⟩ : ∃ hash, Sum256 (tokenInput q.FullPath s) = some hash := ⟨_, Sum256_eq _⟩
  refine ⟨hex.EncodeToString hash, ?_, ?_⟩
  · rw [Token_eq, hS]; rfl
  · rw [Token_eq, ← hp, ← hs, hS]; rfl

/-- An instance of `Token_deterministic` at path `"ab"` and secret `"c"`. -/
theorem Token_deterministic_witness :
    ∃ t, Query.Token { FullPath := str "ab" } (str "c") = some (t, { FullPath := str "ab" })
      ∧ Query.Token { FullPath := str "ab" } (str "c") = some (t, { FullPath := str "ab" }) :=
  Token_deterministic { FullPath := str "ab" } { FullPath := str "ab" } (str "c") (str "c") rfl rfl

/-- C7: `main` writes `Token("/?width=100&height=200&blur=3", v)` and one newline to
standard output, where `v` is the value of `TOKEN_SECRET`, or the empty string when it is unset:
one line of 65 bytes. -/
theorem main_output (w : World) :
    ∃ t, Query.Token { FullPath := str "/?width=100&height=200&blur=3" }
          ((w.env (str "TOKEN_SECRET")).getD (str ""))
        = some (t, { FullPath := str "/?width=100&height=200&blur=3" })
      ∧ gen_token.main w = some { env := w.env, stdout := w.stdout ++ (t ++ str "\n") }
      ∧ (t ++ str "\n").length = 65 ∧ t.length = 64
      ∧ ∀ c ∈ t, c ∉ str "\n" := by
  obtain ⟨hash, hS⟩ : ∃ hash, Sum256 (tokenInput (str "/?width=100&height=200&blur=3")
      ((w.env (str "TOKEN_SECRET")).getD (str ""))) = some hash := ⟨_, Sum256_eq _⟩
  have hT : Query.Token { FullPath := str "/?width=100&height=200&blur=3" }
      ((w.env (str "TOKEN_SECRET")).getD (str ""))
      = some (hex.EncodeToString hash, { FullPath := str "/?width=100&height=200&blur=3" }) := by
    rw [Token_eq, hS]; rfl
  have hG : os.Getenv w.env (str "TOKEN_SECRET") = (w.env (str "TOKEN_SECRET")).getD (str "") := by
    unfold os.Getenv
    cases w.env (str "TOKEN_SECRET") <;> rfl
  have hlen : (hex.EncodeToString hash).length = 64 := by
    rw [EncodeToString_length, Sum256_length _ _ hS]
  have hnl : str "\n" = [10] := by decide
  refine ⟨hex.EncodeToString hash, hT, ?_, ?_, hlen, ?_⟩
  · unfold gen_token.main
    simp only []
    rw [hG, hT]
    simp only [fmt.Println, List.append_assoc]
  · rw [List.length_append, hlen, hnl]; rfl
  · intro c hc hmem
    have h := EncodeToString_lower _ c hc
    rw [hnl, List.mem_singleton] at hmem
    rw [hmem] at h
    revert h
    decide

/-- C8: `Token` leaves its receiver as it found it: the `FullPath` after the call is the
`FullPath` before it, and a second call on the same receiver returns the same token. -/
theorem Token_receiver_unchanged (q : Query) (s : List UInt8) :
    ∃ t q', q.Token s = some (t, q') ∧ q'.FullPath = q.FullPath ∧ q' = q
      ∧ q'.Token s = some (t, q') := by
  obtain ⟨hash, hS⟩ : ∃ hash, Sum256 (tokenInput q.FullPath s) = some hash := ⟨_, Sum256_eq _⟩
  have hT : q.Token s = some (hex.EncodeToString hash, q) := by
    rw [Token_eq, hS]; rfl
  exact ⟨_, q, hT, rfl, rfl, hT⟩

/-- C9: a `$` may move between the end of the path and the start of the secret without
changing the token, and any two pairs with the same `bytes(p) ++ "$" ++ bytes(s)` have the same
token. -/
theorem Token_dollar_collision :
    (∀ p s : List UInt8, ∃ t,
        Query.Token { FullPath := p ++ str "$" } s = some (t, { FullPath := p ++ str "$" })
        ∧ Query.Token { FullPath := p } (str "$" ++ s) = some (t, { FullPath := p }))
    ∧ (∀ p s p' s' : List UInt8, p ++ str "$" ++ s = p' ++ str "$" ++ s' → ∃ t,
        Query.Token { FullPath := p } s = some (t, { FullPath := p })
        ∧ Query.Token { FullPath := p' } s' = some (t, { FullPath := p' })) := by
  have general : ∀ p s p' s' : List UInt8, p ++ str "$" ++ s = p' ++ str "$" ++ s' → ∃ t,
      Query.Token { FullPath := p } s = some (t, { FullPath := p })
      ∧ Query.Token { FullPath := p' } s' = some (t, { FullPath := p' }) := by
    intro p s p' s' h
    obtain ⟨hash, hS⟩ : ∃ hash, Sum256 (tokenInput p s) = some hash := ⟨_, Sum256_eq _⟩
    have hi : tokenInput p' s' = tokenInput p s := h.symm
    refine ⟨hex.EncodeToString hash, ?_, ?_⟩
    · rw [Token_eq, hS]; rfl
    · rw [Token_eq]
      simp only []
      rw [hi, hS]; rfl
  refine ⟨fun p s => general _ _ _ _ ?_, general⟩
  simp only [List.append_assoc]

/-- An instance of `Token_dollar_collision` at `("a", "$b")` and `("a$", "b")`. -/
theorem Token_dollar_collision_witness :
    str "a" ++ str "$" ++ str "$b" = str "a$" ++ str "$" ++ str "b"
    ∧ ∃ t, Query.Token { FullPath := str "a" } (str "$b") = some (t, { FullPath := str "a" })
        ∧ Query.Token { FullPath := str "a$" } (str "b") = some (t, { FullPath := str "a$" }) :=
  ⟨by decide, Token_dollar_collision.2 (str "a") (str "$b") (str "a$") (str "b") (by decide)⟩

/-- C10: when neither path contains the byte `$`, the hashed buffer determines the pair:
equal buffers `bytes(p) ++ "$" ++ bytes(s)` come from equal paths and equal secrets; so two
distinct pairs with the same token have distinct buffers with the same SHA-256 digest. -/
theorem tokenInput_injective (p p' s s' : List UInt8)
    (hp : ∀ c ∈ str "$", c ∉ p) (hp' : ∀ c ∈ str "$", c ∉ p') :
    (tokenInput p s = tokenInput p' s' → p = p' ∧ s = s')
    ∧ (∀ t, Query.Token { FullPath := p } s = some (t, { FullPath := p }) →
        Query.Token { FullPath := p' } s' = some (t, { FullPath := p' }) →
        ¬ (p = p' ∧ s = s') →
        tokenInput p s ≠ tokenInput p' s'
          ∧ Sum256 (tokenInput p s) = Sum256 (tokenInput p' s')) := by
  have hd : str "$" = [36] := by decide
  have hinj : tokenInput p s = tokenInput p' s' → p = p' ∧ s = s' := by
    intro h
    unfold tokenInput at h
    rw [hd] at h hp hp'
    exact append_sep_inj 36 p p' s s' (hp 36 (List.mem_singleton.mpr rfl))
      (hp' 36 (List.mem_singleton.mpr rfl)) h
  refine ⟨hinj, ?_⟩
  intro t h1 h2 hne
  refine ⟨fun h => hne (hinj h), ?_⟩
  obtain ⟨hash, hS⟩ : ∃ hash, Sum256 (tokenInput p s) = some hash := ⟨_, Sum256_eq _⟩
  obtain ⟨hash', hS'⟩ : ∃ hash, Sum256 (tokenInput p' s') = some hash := ⟨_, Sum256_eq _⟩
  rw [Token_eq] at h1 h2
  simp only [] at h1 h2
  rw [hS] at h1
  rw [hS'] at h2
  simp only [Option.map_some', Option.some.injEq, Prod.mk.injEq, and_true] at h1 h2
  rw [hS, hS', EncodeToString_injective hash hash' (h1.trans h2.symm)]

/-- An instance of `tokenInput_injective` at path `"ab"` and secret `"c"`. -/
theorem tokenInput_injective_witness :
    (∀ c ∈ str "$", c ∉ str "ab") ∧ (str "ab" = str "ab" ∧ str "c" = str "c") :=
  ⟨by decide, (tokenInput_injective (str "ab") (str "ab") (str "c") (str "c")
    (by decide) (by decide)).1 rfl⟩

/-- C11: the hex encoding loses no information: two tokens are equal exactly when the
32-byte SHA-256 digests of `p ++ "$" ++ s` and `p' ++ "$" ++ s'` are equal, and hex-decoding
`Token(p, s)` returns the digest. -/
theorem Token_eq_iff_digest_eq (p s p' s' : List UInt8) :
    ∃ hash hash' t t', Sum256 (p ++ str "$" ++ s) = some hash
      ∧ Sum256 (p' ++ str "$" ++ s') = some hash'
      ∧ hash.length = 32 ∧ hash'.length = 32
      ∧ Query.Token { FullPath := p } s = some (t, { FullPath := p })
      ∧ Query.Token { FullPath := p' } s' = some (t', { FullPath := p' })
      ∧ (t = t' ↔ hash = hash')
      ∧ hex.DecodeString t = some hash := by
  obtain ⟨hash, hS⟩ : ∃ hash, Sum256 (tokenInput p s) = some hash := ⟨_, Sum256_eq _⟩
  obtain ⟨hash', hS'⟩ : ∃ hash, Sum256 (tokenInput p' s') = some hash := ⟨_, Sum256_eq _⟩
  refine ⟨hash, hash', hex.EncodeToString hash, hex.EncodeToString hash', hS, hS',
    Sum256_length _ _ hS, Sum256_length _ _ hS', ?_, ?_, ?_, DecodeString_EncodeToString hash⟩
  · rw [Token_eq, hS]; rfl
  · rw [Token_eq, hS']; rfl
  · exact ⟨EncodeToString_injective hash hash', fun h => by rw [h]⟩

/-- The token of the known vector decodes to the 32 bytes of its digest. -/
theorem Token_known_vector_decodes :
    (Query.Token { FullPath := str "/?width=100&height=200&blur=3" } (str "test")).bind
        (fun r => hex.DecodeString r.1)
      = Sum256 (str "/?width=100&height=200&blur=3$test") := by
  decide

end gen_token
